import Mathlib

/-!
# Verification of the BHDS core data pipeline

Shallow embedding of the core of the Binance Historical Data Service
(partition store, source merger, gap engine, resampler) and proofs of the
specified properties.  Times are modelled as integers (milliseconds since
epoch), prices and volumes as rationals.  The Python sources of the core
(`generate/kline_gaps.py`, `generate/merge.py`, `generate/resample.py`,
`util/ts_manager.py`) are not part of the available sources; the
definitions below are modelled from the specification's description of
those modules.
-/

/-- One fixed-width time bucket of trading data for one instrument.
`open_time` is the start of the bucket in ms; `open_price` is the spec's
`open` field (renamed because `open` is a Lean keyword). -/
structure Candle where
  open_time : Int
  open_price : Rat
  high : Rat
  low : Rat
  close : Rat
  volume : Rat
  quote_volume : Rat
  trade_count : Nat
  taker_buy_base_volume : Rat
  taker_buy_quote_volume : Rat
  deriving Repr, DecidableEq

/-- A detected discontinuity between two consecutive candles after merge:
`{start_time, end_time, duration, price_change_pct}`. -/
structure GapRecord where
  start_time : Int
  end_time : Int
  duration : Int
  price_change_pct : Rat
  deriving Repr, DecidableEq

/-- Absolute value on rationals, written out so it evaluates by `decide`. -/
def ratAbs (x : Rat) : Rat := if x < 0 then -x else x

/-- Relative price change `Δp = |next.open - cur.close| / cur.close` between
two consecutive candles. -/
def priceChange (cur nxt : Candle) : Rat :=
  ratAbs (nxt.open_price - cur.close) / cur.close

/-- Modelled from the spec: the dual gap trigger of `generate/kline_gaps.py`
(`scan_gaps`), whose source is not available.  A pair of consecutive candles
is a (hard) gap when `Δt = next.open_time - cur.open_time` exceeds
`min_gap_duration` OR `Δp = |next.open - cur.close| / cur.close` exceeds
`min_price_change_pct`. -/
def isGapPair (min_gap_duration : Int) (min_price_change_pct : Rat)
    (cur nxt : Candle) : Bool :=
  decide (min_gap_duration < nxt.open_time - cur.open_time) ||
  decide (min_price_change_pct < priceChange cur nxt)

/-- The `GapRecord` emitted for a gap between two consecutive candles. -/
def mkGapRecord (cur nxt : Candle) : GapRecord :=
  { start_time := cur.open_time
    end_time := nxt.open_time
    duration := nxt.open_time - cur.open_time
    price_change_pct := priceChange cur nxt }

/-- Modelled from the spec: `scan_gaps` of `generate/kline_gaps.py`, whose
source is not available.  Walks consecutive candle pairs of the sorted
merged series and emits one `GapRecord` per pair exceeding either
threshold. -/
def scan_gaps (min_gap_duration : Int) (min_price_change_pct : Rat) :
    List Candle → List GapRecord
  | [] => []
  | [_] => []
  | c :: d :: rest =>
      (if isGapPair min_gap_duration min_price_change_pct c d
        then [mkGapRecord c d] else []) ++
      scan_gaps min_gap_duration min_price_change_pct (d :: rest)

/-- Strict ordering of candles by `open_time`. -/
def candleLt (a b : Candle) : Prop := a.open_time < b.open_time

/-- A series is well formed when it is strictly increasing by `open_time`. -/
def sortedSeries (cs : List Candle) : Prop := List.Pairwise candleLt cs

theorem scan_gaps_start_gt (mg : Int) (mp : Rat) :
    ∀ (cs : List Candle) (t : Int),
      (∀ c ∈ cs, t < c.open_time) →
      ∀ r ∈ scan_gaps mg mp cs, t < r.start_time := by
  intro cs
  induction cs with
  | nil => intro t _ r hr; simp [scan_gaps] at hr
  | cons c cs ih =>
    intro t ht r hr
    cases cs with
    | nil => simp [scan_gaps] at hr
    | cons d rest =>
      simp only [scan_gaps, List.mem_append] at hr
      rcases hr with hr | hr
      · rcases (by split at hr <;> simp_all : r = mkGapRecord c d) with rfl
        exact ht c (List.mem_cons_self _ _)
      · exact ih t (fun x hx => ht x (List.mem_cons_of_mem _ hx)) r hr

instance : ∀ a b : Candle, Decidable (candleLt a b) := fun a b =>
  inferInstanceAs (Decidable (a.open_time < b.open_time))

instance : ∀ cs : List Candle, Decidable (sortedSeries cs) := fun cs =>
  inferInstanceAs (Decidable (List.Pairwise candleLt cs))

theorem scan_gaps_cons_eq (mg : Int) (mp : Rat) (a b : Candle)
    (t : List Candle) :
    scan_gaps mg mp (a :: b :: t) =
      (if isGapPair mg mp a b then [mkGapRecord a b] else []) ++
        scan_gaps mg mp (b :: t) := rfl

theorem scan_gaps_countP_cons (mg : Int) (mp : Rat) (c d : Candle)
    (rest : List Candle) (hsorted : sortedSeries (c :: d :: rest)) :
    (scan_gaps mg mp (c :: d :: rest)).countP
        (fun r => r.start_time == c.open_time) =
      if isGapPair mg mp c d then 1 else 0 := by
  have hlt : ∀ x ∈ d :: rest, c.open_time < x.open_time := by
    intro x hx
    exact (List.pairwise_cons.mp hsorted).1 x hx
  have htail : ∀ r ∈ scan_gaps mg mp (d :: rest), c.open_time < r.start_time :=
    scan_gaps_start_gt mg mp (d :: rest) c.open_time hlt
  have htail0 : (scan_gaps mg mp (d :: rest)).countP
      (fun r => r.start_time == c.open_time) = 0 := by
    rw [List.countP_eq_zero]
    intro r hr
    have := htail r hr
    simp only [beq_iff_eq]
    omega
  simp only [scan_gaps, List.countP_append, htail0, Nat.add_zero]
  split
  · simp [List.countP_cons, mkGapRecord]
  · simp

/-- C1: Gap scan correctness.  For every sorted merged series, for every pair
of consecutive candles `cur, nxt`, `scan_gaps` emits a `GapRecord` whose
`start_time` is `cur.open_time` exactly when
`Δt = nxt.open_time - cur.open_time` exceeds `min_gap_duration` or
`Δp = |nxt.open - cur.close| / cur.close` exceeds `min_price_change_pct`;
and when both thresholds are exceeded exactly one `GapRecord` is emitted
(the count is 1, never 2). -/
theorem scan_gaps_emits_iff_threshold (mg : Int) (mp : Rat)
    (pre post : List Candle) (cur nxt : Candle)
    (hs : sortedSeries (pre ++ cur :: nxt :: post)) :
    ((scan_gaps mg mp (pre ++ cur :: nxt :: post)).countP
        (fun r => r.start_time == cur.open_time) =
      if mg < nxt.open_time - cur.open_time ∨
          mp < ratAbs (nxt.open_price - cur.close) / cur.close
      then 1 else 0) ∧
    ((mg < nxt.open_time - cur.open_time ∨
        mp < ratAbs (nxt.open_price - cur.close) / cur.close) →
      mkGapRecord cur nxt ∈ scan_gaps mg mp (pre ++ cur :: nxt :: post)) := by
  have hcond : isGapPair mg mp cur nxt = true ↔
      (mg < nxt.open_time - cur.open_time ∨
        mp < ratAbs (nxt.open_price - cur.close) / cur.close) := by
    simp [isGapPair, priceChange]
  induction pre with
  | nil =>
    simp only [List.nil_append] at hs ⊢
    constructor
    · rw [scan_gaps_countP_cons mg mp cur nxt post hs]
      by_cases hgap : isGapPair mg mp cur nxt = true
      · rw [if_pos hgap, if_pos (hcond.mp hgap)]
      · rw [if_neg hgap, if_neg (fun hc => hgap (hcond.mpr hc))]
    · intro hc
      rw [scan_gaps_cons_eq, if_pos (hcond.mpr hc)]
      exact List.mem_append_left _ (List.mem_singleton.mpr rfl)
  | cons a pre ih =>
    have hs' : sortedSeries (pre ++ cur :: nxt :: post) :=
      (List.pairwise_cons.mp hs).2
    have hacur : a.open_time < cur.open_time := by
      have := (List.pairwise_cons.mp hs).1 cur
        (by simp)
      exact this
    obtain ⟨ihcount, ihmem⟩ := ih hs'
    have hne : pre ++ cur :: nxt :: post ≠ [] := by
      cases pre <;> simp
    obtain ⟨b, t, hbt⟩ : ∃ b t, pre ++ cur :: nxt :: post = b :: t := by
      cases hpcs : pre ++ cur :: nxt :: post with
      | nil => exact absurd hpcs hne
      | cons b t => exact ⟨b, t, rfl⟩
    have hhead : (if isGapPair mg mp a b then [mkGapRecord a b] else []).countP
        (fun r => r.start_time == cur.open_time) = 0 := by
      rw [List.countP_eq_zero]
      intro r hr
      have : r = mkGapRecord a b := by split at hr <;> simp_all
      subst this
      simp only [mkGapRecord, beq_iff_eq]
      omega
    constructor
    · rw [List.cons_append, hbt, scan_gaps_cons_eq, List.countP_append, hhead,
        Nat.zero_add, ← hbt, ihcount]
    · intro hc
      rw [List.cons_append, hbt, scan_gaps_cons_eq]
      exact List.mem_append_right _ (by rw [← hbt]; exact ihmem hc)

/-- A concrete two-candle series whose pair exceeds only the time threshold. -/
def wGapA : Candle := ⟨0, 10, 10, 10, 10, 1, 1, 1, 0, 0⟩

/-- The successor candle of `wGapA` in the witness series, 20ms later. -/
def wGapB : Candle := ⟨20, 10, 10, 10, 10, 1, 1, 1, 0, 0⟩

theorem scan_gaps_emits_iff_threshold_witness :
    ((scan_gaps 10 (1/10) ([] ++ wGapA :: wGapB :: [])).countP
        (fun r => r.start_time == wGapA.open_time) =
      if (10 : Int) < wGapB.open_time - wGapA.open_time ∨
          (1/10 : Rat) < ratAbs (wGapB.open_price - wGapA.close) / wGapA.close
      then 1 else 0) ∧
    (((10 : Int) < wGapB.open_time - wGapA.open_time ∨
        (1/10 : Rat) < ratAbs (wGapB.open_price - wGapA.close) / wGapA.close) →
      mkGapRecord wGapA wGapB ∈ scan_gaps 10 (1/10) ([] ++ wGapA :: wGapB :: [])) :=
  scan_gaps_emits_iff_threshold 10 (1/10) [] [] wGapA wGapB (by decide)

/-- A synthetic filler candle at time `t` carrying the previous real close
`p`: `open = high = low = close = p`, all volumes and the trade count 0. -/
def synthCandle (t : Int) (p : Rat) : Candle :=
  ⟨t, p, p, p, p, 0, 0, 0, 0, 0⟩

/-- `n` synthetic candles at times `t, t + Δ, …, t + (n-1)·Δ`, all carrying
the previous real close `p`. -/
def synthRun (Δ : Int) (p : Rat) (t : Int) : Nat → List Candle
  | 0 => []
  | n + 1 => synthCandle t p :: synthRun Δ p (t + Δ) n

/-- Modelled from the spec: `fill_kline_gaps` of `generate/kline_gaps.py`,
whose source is not available.  Within a segment, every missing
native-interval timestamp between two adjacent real candles is synthesized
from the previous real candle's close. -/
def fill_kline_gaps (Δ : Int) : List Candle → List Candle
  | [] => []
  | [c] => [c]
  | c :: d :: rest =>
      c :: (synthRun Δ c.close (c.open_time + Δ)
              (((d.open_time - c.open_time) / Δ).toNat - 1) ++
            fill_kline_gaps Δ (d :: rest))

/-- The native-interval grid invariant of a segment: strictly increasing
`open_time`s, each step a (positive) multiple of the native interval. -/
def gridChain (Δ : Int) (cs : List Candle) : Prop :=
  List.Chain' (fun a b =>
    a.open_time < b.open_time ∧ Δ ∣ b.open_time - a.open_time) cs

instance : ∀ (Δ : Int) (cs : List Candle), Decidable (gridChain Δ cs) :=
  fun Δ cs => inferInstanceAs (Decidable (List.Chain'
    (fun (a b : Candle) =>
      a.open_time < b.open_time ∧ Δ ∣ b.open_time - a.open_time) cs))

/-- The exact-native-interval step relation of a filled segment. -/
def stepΔ (Δ : Int) (a b : Candle) : Prop := b.open_time - a.open_time = Δ

instance : ∀ (Δ : Int) (a b : Candle), Decidable (stepΔ Δ a b) :=
  fun Δ a b => inferInstanceAs (Decidable (b.open_time - a.open_time = Δ))

theorem sorted_of_gridChain {Δ : Int} {cs : List Candle}
    (h : gridChain Δ cs) : List.Pairwise candleLt cs := by
  have h' : List.Chain' candleLt cs := h.imp (fun _ _ hab => hab.1)
  have : IsTrans Candle candleLt := ⟨fun a b c h1 h2 => by
    unfold candleLt at *; omega⟩
  exact List.chain'_iff_pairwise.mp h'

theorem synthRun_mem {Δ : Int} {p : Rat} :
    ∀ {n : Nat} {t : Int} {c : Candle}, c ∈ synthRun Δ p t n ↔
      ∃ j : Nat, j < n ∧ c = synthCandle (t + j * Δ) p := by
  intro n
  induction n with
  | zero => intro t c; simp [synthRun]
  | succ n ih =>
    intro t c
    simp only [synthRun, List.mem_cons, ih]
    constructor
    · rintro (rfl | ⟨j, hj, rfl⟩)
      · exact ⟨0, by omega, by simp⟩
      · exact ⟨j + 1, by omega, by
          congr 1
          push_cast
          ring⟩
    · rintro ⟨j, hj, rfl⟩
      cases j with
      | zero => left; simp
      | succ j =>
        right
        exact ⟨j, by omega, by
          congr 1
          push_cast
          ring⟩

theorem fill_cons_head (Δ : Int) (d : Candle) (rest : List Candle) :
    ∃ l, fill_kline_gaps Δ (d :: rest) = d :: l := by
  cases rest with
  | nil => exact ⟨[], rfl⟩
  | cons e t => exact ⟨_, rfl⟩

theorem chain_glue (Δ : Int) (p : Rat) (d : Candle) (l' : List Candle)
    (hch : List.Chain' (stepΔ Δ) (d :: l')) :
    ∀ (n : Nat) (c : Candle), d.open_time = c.open_time + (n + 1) * Δ →
      List.Chain' (stepΔ Δ)
        (c :: (synthRun Δ p (c.open_time + Δ) n ++ d :: l')) := by
  intro n
  induction n with
  | zero =>
    intro c hc
    simp only [synthRun, List.nil_append]
    exact List.chain'_cons.mpr ⟨by unfold stepΔ; omega, hch⟩
  | succ n ih =>
    intro c hc
    have := ih (synthCandle (c.open_time + Δ) p) (by
      simp only [synthCandle]
      rw [hc]; push_cast; ring)
    simp only [synthCandle] at this
    simp only [synthRun, List.cons_append]
    exact List.chain'_cons.mpr ⟨by unfold stepΔ; simp [synthCandle], this⟩

theorem fill_chain' (Δ : Int) (hΔ : 0 < Δ) :
    ∀ (cs : List Candle), gridChain Δ cs →
      List.Chain' (stepΔ Δ) (fill_kline_gaps Δ cs) := by
  intro cs
  induction cs with
  | nil => intro _; simp [fill_kline_gaps]
  | cons c cs ih =>
    intro hg
    cases cs with
    | nil => simp [fill_kline_gaps]
    | cons d rest =>
      have hg' : gridChain Δ (d :: rest) := (List.chain'_cons.mp hg).2
      have hstep : c.open_time < d.open_time ∧
          Δ ∣ d.open_time - c.open_time := (List.chain'_cons.mp hg).1
      obtain ⟨k, hk⟩ := hstep.2
      have hk1 : 1 ≤ k := by nlinarith [hstep.1]
      have hdiv : (d.open_time - c.open_time) / Δ = k := by
        rw [hk, Int.mul_comm, Int.mul_ediv_cancel _ (by omega)]
      obtain ⟨l, hl⟩ := fill_cons_head Δ d rest
      have hch : List.Chain' (stepΔ Δ) (d :: l) := by
        rw [← hl]; exact ih hg'
      have hn : d.open_time = c.open_time +
          (((((d.open_time - c.open_time) / Δ).toNat - 1 : Nat) : Int) + 1) * Δ := by
        rw [hdiv]
        have h1 : ((k.toNat - 1 : Nat) : Int) = k - 1 := by omega
        rw [h1]
        have h2 : (k - 1 + 1) * Δ = Δ * k := by ring
        rw [h2, ← hk]
        ring
      have := chain_glue Δ c.close d l hch
        (((d.open_time - c.open_time) / Δ).toNat - 1) c hn
      simpa [fill_kline_gaps, hl] using this

theorem fill_subset (Δ : Int) :
    ∀ (cs : List Candle), ∀ c ∈ cs, c ∈ fill_kline_gaps Δ cs := by
  intro cs
  induction cs with
  | nil => intro c hc; simp at hc
  | cons c cs ih =>
    intro x hx
    cases cs with
    | nil => simpa [fill_kline_gaps] using hx
    | cons d rest =>
      rcases List.mem_cons.mp hx with rfl | hx'
      · simp [fill_kline_gaps]
      · simp only [fill_kline_gaps, List.mem_cons, List.mem_append]
        exact Or.inr (Or.inr (ih x hx'))

theorem mem_ge_head {d : Candle} {rest : List Candle}
    (hs : List.Pairwise candleLt (d :: rest)) :
    ∀ q ∈ d :: rest, d.open_time ≤ q.open_time := by
  intro q hq
  rcases List.mem_cons.mp hq with rfl | hq'
  · exact le_refl _
  · exact le_of_lt ((List.pairwise_cons.mp hs).1 q hq')

theorem fill_mem_class (Δ : Int) (hΔ : 0 < Δ) :
    ∀ (cs : List Candle), gridChain Δ cs →
      ∀ c' ∈ fill_kline_gaps Δ cs, c' ∈ cs ∨ ∃ p ∈ cs,
        p.open_time < c'.open_time ∧
        (∀ q ∈ cs, q.open_time < c'.open_time → q.open_time ≤ p.open_time) ∧
        c'.open_price = p.close ∧ c'.high = p.close ∧ c'.low = p.close ∧
        c'.close = p.close ∧ c'.volume = 0 ∧ c'.quote_volume = 0 ∧
        c'.trade_count = 0 ∧ c'.taker_buy_base_volume = 0 ∧
        c'.taker_buy_quote_volume = 0 := by
  intro cs
  induction cs with
  | nil => intro _ c' hc'; simp [fill_kline_gaps] at hc'
  | cons c cs ih =>
    intro hg c' hc'
    cases cs with
    | nil =>
      simp only [fill_kline_gaps, List.mem_singleton] at hc'
      exact Or.inl (by simp [hc'])
    | cons d rest =>
      have hg' : gridChain Δ (d :: rest) := (List.chain'_cons.mp hg).2
      have hstep : c.open_time < d.open_time ∧
          Δ ∣ d.open_time - c.open_time := (List.chain'_cons.mp hg).1
      obtain ⟨k, hk⟩ := hstep.2
      have hk1 : 1 ≤ k := by nlinarith [hstep.1]
      have hdiv : (d.open_time - c.open_time) / Δ = k := by
        rw [hk, Int.mul_comm, Int.mul_ediv_cancel _ (by omega)]
      have hsorted' : List.Pairwise candleLt (d :: rest) :=
        sorted_of_gridChain hg'
      simp only [fill_kline_gaps, hdiv, List.mem_cons, List.mem_append] at hc'
      rcases hc' with rfl | hsyn | htail
      · exact Or.inl (List.mem_cons_self _ _)
      · -- a synthetic candle strictly between c and d
        rw [synthRun_mem] at hsyn
        obtain ⟨j, hj, rfl⟩ := hsyn
        have hjk : (j : Int) + 1 ≤ k - 1 := by omega
        have hmul : ((j : Int) + 1) * Δ ≤ (k - 1) * Δ :=
          mul_le_mul_of_nonneg_right hjk (le_of_lt hΔ)
        have hopen : (synthCandle (c.open_time + Δ + (j : Int) * Δ) c.close).open_time
            = c.open_time + ((j : Int) + 1) * Δ := by
          simp [synthCandle]; ring
        have hltd : c.open_time + ((j : Int) + 1) * Δ < d.open_time := by
          nlinarith
        refine Or.inr ⟨c, List.mem_cons_self _ _, ?_, ?_, by simp [synthCandle],
          by simp [synthCandle], by simp [synthCandle], by simp [synthCandle],
          by simp [synthCandle], by simp [synthCandle], by simp [synthCandle],
          by simp [synthCandle], by simp [synthCandle]⟩
        · rw [hopen]
          nlinarith
        · intro q hq hqlt
          rcases List.mem_cons.mp hq with rfl | hq'
          · exact le_refl _
          · exfalso
            have h1 : d.open_time ≤ q.open_time := mem_ge_head hsorted' q hq'
            rw [hopen] at hqlt
            omega
      · -- a candle coming from the filled tail
        rcases ih hg' c' htail with hmem | ⟨p, hp, hplt, hpnear, hrest⟩
        · exact Or.inl (List.mem_cons_of_mem _ hmem)
        · refine Or.inr ⟨p, List.mem_cons_of_mem _ hp, hplt, ?_, hrest⟩
          intro q hq hqlt
          rcases List.mem_cons.mp hq with rfl | hq'
          · have h1 : d.open_time ≤ p.open_time := mem_ge_head hsorted' p hp
            omega
          · exact hpnear q hq' hqlt

theorem chain_time_add (Δ : Int) (l : List Candle)
    (hch : List.Chain' (stepΔ Δ) l) :
    ∀ (n i : Nat) (h : i + n < l.length),
      (l.get ⟨i + n, h⟩).open_time =
        (l.get ⟨i, by omega⟩).open_time + (n : Int) * Δ := by
  intro n
  induction n with
  | zero => intro i h; simp
  | succ n ih =>
    intro i h
    have h1 : i + n < l.length := by omega
    have h2 : i + n < l.length - 1 := by omega
    have hstep := List.chain'_iff_get.mp hch (i + n) h2
    have heq : (l.get ⟨i + n + 1, by omega⟩).open_time =
        (l.get ⟨i + n, h1⟩).open_time + Δ := by
      have := hstep
      unfold stepΔ at this
      omega
    have : i + (n + 1) = i + n + 1 := by omega
    rw [List.get_of_eq rfl]
    have hg : (l.get ⟨i + (n + 1), h⟩) = (l.get ⟨i + n + 1, by omega⟩) := by
      congr 1
    rw [hg, heq, ih i h1]
    push_cast
    ring

theorem chain_cover (Δ : Int) (hΔ : 0 < Δ) (l : List Candle)
    (hch : List.Chain' (stepΔ Δ) l) :
    ∀ x ∈ l, ∀ y ∈ l, ∀ t : Int, x.open_time ≤ t → t ≤ y.open_time →
      Δ ∣ t - x.open_time → ∃ c ∈ l, c.open_time = t := by
  intro x hx y hy t hxt hty hdvd
  obtain ⟨ix, hxg⟩ := List.get_of_mem hx
  obtain ⟨iy, hyg⟩ := List.get_of_mem hy
  obtain ⟨m, hm⟩ := hdvd
  have hm0 : 0 ≤ m := by nlinarith
  have hpos : 0 < l.length := by
    cases' ix with ix hix
    omega
  have hx0 := chain_time_add Δ l hch ix.val 0 (by omega)
  have hy0 := chain_time_add Δ l hch iy.val 0 (by omega)
  simp only [Nat.zero_add] at hx0 hy0
  have hxval : l.get ⟨ix.val, by omega⟩ = x := hxg
  have hyval : l.get ⟨iy.val, by omega⟩ = y := hyg
  have hxt' : x.open_time = (l.get ⟨0, hpos⟩).open_time + (ix.val : Int) * Δ := by
    rw [← hxval]; exact hx0
  have hyt' : y.open_time = (l.get ⟨0, hpos⟩).open_time + (iy.val : Int) * Δ := by
    rw [← hyval]; exact hy0
  have hiy : (ix.val : Int) + m ≤ (iy.val : Int) := by
    have h1 : ((ix.val : Int) + m) * Δ ≤ (iy.val : Int) * Δ := by nlinarith
    exact le_of_mul_le_mul_right h1 hΔ
  have hidx : ix.val + m.toNat < l.length := by
    have : (iy.val : Int) < (l.length : Int) := by
      exact_mod_cast iy.isLt
    omega
  have hgoal := chain_time_add Δ l hch m.toNat ix.val hidx
  refine ⟨l.get ⟨ix.val + m.toNat, hidx⟩, List.get_mem l _ _, ?_⟩
  rw [hgoal, hxval]
  have hmt : ((m.toNat : Int)) = m := Int.toNat_of_nonneg hm0
  rw [hmt]
  linarith [hm, mul_comm m Δ]

/-- C2: Fill correctness.  For every segment on the native grid (strictly
increasing `open_time`s, steps multiples of the native interval `Δ`),
`fill_kline_gaps` (1) produces output whose consecutive time steps all equal
exactly `Δ`, (2) every output candle is either a real input candle or a
synthetic candle whose `open = high = low = close` equal the
nearest-preceding real candle's close with `volume = quote_volume =
trade_count = taker_buy_* = 0`, (3) a candle exists at every native-interval
timestamp spanned by the input, and (4) no real candle is dropped. -/
theorem fill_kline_gaps_spec (Δ : Int) (cs : List Candle)
    (hΔ : 0 < Δ) (hg : gridChain Δ cs) :
    List.Chain' (stepΔ Δ) (fill_kline_gaps Δ cs) ∧
    (∀ c' ∈ fill_kline_gaps Δ cs, c' ∈ cs ∨ ∃ p ∈ cs,
        p.open_time < c'.open_time ∧
        (∀ q ∈ cs, q.open_time < c'.open_time → q.open_time ≤ p.open_time) ∧
        c'.open_price = p.close ∧ c'.high = p.close ∧ c'.low = p.close ∧
        c'.close = p.close ∧ c'.volume = 0 ∧ c'.quote_volume = 0 ∧
        c'.trade_count = 0 ∧ c'.taker_buy_base_volume = 0 ∧
        c'.taker_buy_quote_volume = 0) ∧
    (∀ t : Int, ∀ a ∈ cs, ∀ b ∈ cs, a.open_time ≤ t → t ≤ b.open_time →
        Δ ∣ t - a.open_time → ∃ c' ∈ fill_kline_gaps Δ cs, c'.open_time = t) ∧
    (∀ c ∈ cs, c ∈ fill_kline_gaps Δ cs) := by
  refine ⟨fill_chain' Δ hΔ cs hg, fill_mem_class Δ hΔ cs hg, ?_,
    fill_subset Δ cs⟩
  intro t a ha b hb hat htb hdvd
  exact chain_cover Δ hΔ _ (fill_chain' Δ hΔ cs hg) a (fill_subset Δ cs a ha)
    b (fill_subset Δ cs b hb) t hat htb hdvd

/-- A concrete segment with a single one-step hole, for the fill witness. -/
def wFillA : Candle := ⟨0, 5, 9, 4, 7, 2, 3, 4, 1, 1⟩

/-- The second real candle of the fill witness segment, two steps later. -/
def wFillB : Candle := ⟨20, 8, 9, 6, 8, 2, 3, 4, 1, 1⟩

theorem fill_kline_gaps_spec_witness :
    List.Chain' (stepΔ 10) (fill_kline_gaps 10 [wFillA, wFillB]) ∧
    (∀ c' ∈ fill_kline_gaps 10 [wFillA, wFillB], c' ∈ [wFillA, wFillB] ∨
        ∃ p ∈ [wFillA, wFillB],
        p.open_time < c'.open_time ∧
        (∀ q ∈ [wFillA, wFillB],
          q.open_time < c'.open_time → q.open_time ≤ p.open_time) ∧
        c'.open_price = p.close ∧ c'.high = p.close ∧ c'.low = p.close ∧
        c'.close = p.close ∧ c'.volume = 0 ∧ c'.quote_volume = 0 ∧
        c'.trade_count = 0 ∧ c'.taker_buy_base_volume = 0 ∧
        c'.taker_buy_quote_volume = 0) ∧
    (∀ t : Int, ∀ a ∈ [wFillA, wFillB], ∀ b ∈ [wFillA, wFillB],
        a.open_time ≤ t → t ≤ b.open_time → (10 : Int) ∣ t - a.open_time →
        ∃ c' ∈ fill_kline_gaps 10 [wFillA, wFillB], c'.open_time = t) ∧
    (∀ c ∈ [wFillA, wFillB], c ∈ fill_kline_gaps 10 [wFillA, wFillB]) :=
  fill_kline_gaps_spec 10 [wFillA, wFillB] (by decide)
    (by exact List.chain'_pair.mpr ⟨by decide, ⟨2, by decide⟩⟩)

/-- Lookup of the candle with a given `open_time` in a series. -/
def findByTime (cs : List Candle) (t : Int) : Option Candle :=
  cs.find? (fun c => c.open_time == t)

/-- Modelled from the spec: `merge_klines` of `generate/merge.py`, whose
source is not available.  Merge-join of the archival and the live series on
`open_time`: on a key collision the live candle wins unless it is a partial
candle (missing required fields, abstracted as the predicate
`partialLive`), in which case the archival candle wins; a key present in
only one input is passed through unchanged. -/
def merge_klines (partialLive : Candle → Bool) :
    List Candle → List Candle → List Candle
  | [], live => live
  | a :: arch, [] => a :: arch
  | a :: arch, l :: live =>
    if a.open_time < l.open_time then
      a :: merge_klines partialLive arch (l :: live)
    else if l.open_time < a.open_time then
      l :: merge_klines partialLive (a :: arch) live
    else
      (if partialLive l then a else l) :: merge_klines partialLive arch live
termination_by arch live => arch.length + live.length

theorem findByTime_cons (c : Candle) (cs : List Candle) (t : Int) :
    findByTime (c :: cs) t =
      if c.open_time == t then some c else findByTime cs t := by
  cases h : (c.open_time == t) <;> simp [findByTime, List.find?, h]

theorem findByTime_eq_none (cs : List Candle) (t : Int)
    (h : ∀ c ∈ cs, t < c.open_time) : findByTime cs t = none := by
  rw [findByTime, List.find?_eq_none]
  intro c hc
  have := h c hc
  simp only [beq_iff_eq]
  omega

theorem findByTime_nil (t : Int) : findByTime [] t = none := rfl

/-- C3: Source-merge precedence.  For every pair of sorted archival and live
series and every `open_time` key `t`: if `t` is present in both inputs the
merged output contains the live candle, except when the live candle is
partial (missing required fields) and the archival candle exists, in which
case it contains the archival candle; if `t` is present in exactly one
input, that input's candle appears unchanged. -/
theorem merge_klines_precedence (p : Candle → Bool) (arch live : List Candle) :
    sortedSeries arch → sortedSeries live → ∀ t : Int,
    findByTime (merge_klines p arch live) t =
      match findByTime arch t, findByTime live t with
      | some a, some l => some (if p l then a else l)
      | some a, none => some a
      | none, some l => some l
      | none, none => none := by
  induction arch, live using merge_klines.induct p with
  | case1 live =>
    intro _ _ t
    cases h : findByTime live t <;>
      simp [merge_klines, findByTime_nil, h]
  | case2 a arch =>
    intro _ _ t
    cases h : findByTime (a :: arch) t <;>
      simp [merge_klines, findByTime_nil, h]
  | case3 a arch l live hlt ih =>
    intro ha hl t
    have ha' : sortedSeries arch := (List.pairwise_cons.mp ha).2
    have ihh := ih ha' hl t
    have hmerge : merge_klines p (a :: arch) (l :: live) =
        a :: merge_klines p arch (l :: live) := by
      rw [merge_klines]
      rw [if_pos hlt]
    by_cases ht : a.open_time = t
    · have hlive : findByTime (l :: live) t = none := by
        apply findByTime_eq_none
        intro c hc
        have := mem_ge_head hl c hc
        omega
      rw [hmerge, findByTime_cons a (merge_klines p arch (l :: live)) t,
        if_pos (by simpa using ht), hlive, findByTime_cons a arch t,
        if_pos (by simpa using ht)]
    · rw [hmerge, findByTime_cons a (merge_klines p arch (l :: live)) t,
        if_neg (by simpa using ht), ihh, findByTime_cons a arch t,
        if_neg (by simpa using ht)]
  | case4 a arch l live hnlt hgt ih =>
    intro ha hl t
    have hl' : sortedSeries live := (List.pairwise_cons.mp hl).2
    have ihh := ih ha hl' t
    have hmerge : merge_klines p (a :: arch) (l :: live) =
        l :: merge_klines p (a :: arch) live := by
      rw [merge_klines]
      rw [if_neg hnlt, if_pos hgt]
    by_cases ht : l.open_time = t
    · have harch : findByTime (a :: arch) t = none := by
        apply findByTime_eq_none
        intro c hc
        have := mem_ge_head ha c hc
        omega
      rw [hmerge, findByTime_cons l (merge_klines p (a :: arch) live) t,
        if_pos (by simpa using ht), harch, findByTime_cons l live t,
        if_pos (by simpa using ht)]
    · rw [hmerge, findByTime_cons l (merge_klines p (a :: arch) live) t,
        if_neg (by simpa using ht), ihh, findByTime_cons l live t,
        if_neg (by simpa using ht)]
  | case5 a arch l live hnlt hngt ih =>
    intro ha hl t
    have heq : a.open_time = l.open_time := by omega
    have ha' : sortedSeries arch := (List.pairwise_cons.mp ha).2
    have hl' : sortedSeries live := (List.pairwise_cons.mp hl).2
    have ihh := ih ha' hl' t
    have hmerge : merge_klines p (a :: arch) (l :: live) =
        (if p l then a else l) :: merge_klines p arch live := by
      rw [merge_klines]
      rw [if_neg hnlt, if_neg hngt]
    rw [hmerge]
    by_cases ht : a.open_time = t
    · have h1 : (a.open_time == t) = true := by simpa using ht
      have h2 : (l.open_time == t) = true := by
        simp only [beq_iff_eq]; omega
      have h3 : ((if p l then a else l).open_time == t) = true := by
        split <;> simp only [beq_iff_eq] <;> omega
      simp only [findByTime_cons, h1, h2, h3, if_true]
    · have h1 : (a.open_time == t) = false := by simpa using ht
      have h2 : (l.open_time == t) = false := by
        simp only [beq_eq_false_iff_ne, ne_eq]; omega
      have h3 : ((if p l then a else l).open_time == t) = false := by
        split <;> simp only [beq_eq_false_iff_ne, ne_eq] <;> omega
      simp only [findByTime_cons, h1, h2, h3, if_false]
      exact ihh

/-- Archival-side candle of the merge witness (key 5, also in live). -/
def wMergeA : Candle := ⟨5, 1, 1, 1, 1, 1, 1, 1, 1, 1⟩

/-- Live-side candle of the merge witness sharing key 5 with `wMergeA`. -/
def wMergeL : Candle := ⟨5, 2, 2, 2, 2, 2, 2, 2, 2, 2⟩

/-- Live-only candle of the merge witness (key 9). -/
def wMergeM : Candle := ⟨9, 3, 3, 3, 3, 3, 3, 3, 3, 3⟩

theorem merge_klines_precedence_witness :
    sortedSeries [wMergeA] ∧ sortedSeries [wMergeL, wMergeM] ∧
    findByTime (merge_klines (fun c => c.volume == 0)
        [wMergeA] [wMergeL, wMergeM]) 5 =
      match findByTime [wMergeA] 5, findByTime [wMergeL, wMergeM] 5 with
      | some a, some l => some (if (fun c => c.volume == 0) l then a else l)
      | some a, none => some a
      | none, some l => some l
      | none, none => none :=
  ⟨by decide, by decide,
    merge_klines_precedence (fun c => c.volume == 0) [wMergeA]
      [wMergeL, wMergeM] (by decide) (by decide) 5⟩

/-- Modelled from the spec: the bucketing rule of `generate/resample.py`,
whose source is not available.  A source candle with `open_time = t` belongs
to the target bucket `floor((t - offset) / target_interval) *
target_interval + offset` (Euclidean division, which is floor division for
a positive `target_interval`). -/
def bucketOf (target_interval offset t : Int) : Int :=
  ((t - offset) / target_interval) * target_interval + offset

/-- The member candles of one target bucket, in time order. -/
def bucketMembers (T off b : Int) (cs : List Candle) : List Candle :=
  cs.filter (fun c => bucketOf T off c.open_time == b)

/-- A resampled candle; `open_time` is the bucket start, `vwap` is null when
the bucket's total volume is 0. -/
structure RCandle where
  open_time : Int
  open_price : Rat
  high : Rat
  low : Rat
  close : Rat
  volume : Rat
  quote_volume : Rat
  trade_count : Nat
  taker_buy_base_volume : Rat
  taker_buy_quote_volume : Rat
  vwap : Option Rat
  deriving Repr, DecidableEq

/-- Modelled from the spec: per-bucket aggregation of `generate/resample.py`
over the member candles `m0 :: ms` in time order: `open`/`close` from the
first/last member, `high`/`low` as max/min, volumes and counts as sums,
`vwap = sum(quote_volume) / sum(volume)` or null when the volume sum is 0. -/
def aggBucket (b : Int) (m0 : Candle) (ms : List Candle) : RCandle :=
  { open_time := b
    open_price := m0.open_price
    high := (ms.map Candle.high).foldl max m0.high
    low := (ms.map Candle.low).foldl min m0.low
    close := (ms.getLastD m0).close
    volume := m0.volume + (ms.map Candle.volume).sum
    quote_volume := m0.quote_volume + (ms.map Candle.quote_volume).sum
    trade_count := m0.trade_count + (ms.map Candle.trade_count).sum
    taker_buy_base_volume :=
      m0.taker_buy_base_volume + (ms.map Candle.taker_buy_base_volume).sum
    taker_buy_quote_volume :=
      m0.taker_buy_quote_volume + (ms.map Candle.taker_buy_quote_volume).sum
    vwap :=
      if m0.volume + (ms.map Candle.volume).sum = 0 then none
      else some ((m0.quote_volume + (ms.map Candle.quote_volume).sum) /
        (m0.volume + (ms.map Candle.volume).sum)) }

/-- Modelled from the spec: the resampler of `generate/resample.py`, whose
source is not available.  Groups the source candles by target bucket and
emits an aggregate for a bucket only when its member count equals
`target_interval / native_interval`. -/
def resample (T off Δ : Int) (cs : List Candle) : List RCandle :=
  ((cs.map (fun c => bucketOf T off c.open_time)).dedup).filterMap (fun b =>
    match bucketMembers T off b cs with
    | [] => none
    | m0 :: ms =>
      if (m0 :: ms).length = (T / Δ).toNat then some (aggBucket b m0 ms)
      else none)

theorem foldl_max_spec {α : Type} [LinearOrder α] (xs : List α) :
    ∀ a : α, (xs.foldl max a = a ∨ xs.foldl max a ∈ xs) ∧
      a ≤ xs.foldl max a ∧ ∀ x ∈ xs, x ≤ xs.foldl max a := by
  induction xs with
  | nil => intro a; simp
  | cons x xs ih =>
    intro a
    obtain ⟨hmem, hle, hall⟩ := ih (max a x)
    refine ⟨?_, ?_, ?_⟩
    · simp only [List.foldl_cons]
      rcases hmem with h | h
      · rcases max_choice a x with hm | hm
        · left; rw [h, hm]
        · right; rw [h, hm]; exact List.mem_cons_self _ _
      · right; exact List.mem_cons_of_mem _ h
    · simp only [List.foldl_cons]
      exact le_trans (le_max_left a x) hle
    · intro y hy
      simp only [List.foldl_cons]
      rcases List.mem_cons.mp hy with rfl | hy'
      · exact le_trans (le_max_right a y) hle
      · exact hall y hy'

theorem foldl_min_spec {α : Type} [LinearOrder α] (xs : List α) :
    ∀ a : α, (xs.foldl min a = a ∨ xs.foldl min a ∈ xs) ∧
      xs.foldl min a ≤ a ∧ ∀ x ∈ xs, xs.foldl min a ≤ x := by
  induction xs with
  | nil => intro a; simp
  | cons x xs ih =>
    intro a
    obtain ⟨hmem, hle, hall⟩ := ih (min a x)
    refine ⟨?_, ?_, ?_⟩
    · simp only [List.foldl_cons]
      rcases hmem with h | h
      · rcases min_choice a x with hm | hm
        · left; rw [h, hm]
        · right; rw [h, hm]; exact List.mem_cons_self _ _
      · right; exact List.mem_cons_of_mem _ h
    · simp only [List.foldl_cons]
      exact le_trans hle (min_le_left a x)
    · intro y hy
      simp only [List.foldl_cons]
      rcases List.mem_cons.mp hy with rfl | hy'
      · exact le_trans hle (min_le_right a y)
      · exact hall y hy'

/-- C4: Resample aggregation correctness.  Every emitted bucket `r` of
`resample` aggregates exactly the source candles assigned to the bucket
`floor((t - offset) / target_interval) * target_interval + offset`:
`open`/`close` are the first/last member's, `high`/`low` are the max/min of
member highs/lows, volumes, quote volumes, trade counts and taker-buy
volumes are sums over the members, and `vwap = sum(quote_volume) /
sum(volume)`, null when `sum(volume) = 0`. -/
theorem resample_aggregation (T off Δ : Int) (cs : List Candle) :
    ∀ r ∈ resample T off Δ cs,
      ∃ m0 ms, bucketMembers T off r.open_time cs = m0 :: ms ∧
        (∀ m : Candle, m ∈ m0 :: ms ↔ m ∈ cs ∧
          ((m.open_time - off) / T) * T + off = r.open_time) ∧
        r.open_price = m0.open_price ∧
        r.close = ((m0 :: ms).getLastD m0).close ∧
        r.high ∈ (m0 :: ms).map Candle.high ∧
        (∀ m ∈ m0 :: ms, m.high ≤ r.high) ∧
        r.low ∈ (m0 :: ms).map Candle.low ∧
        (∀ m ∈ m0 :: ms, r.low ≤ m.low) ∧
        r.volume = ((m0 :: ms).map Candle.volume).sum ∧
        r.quote_volume = ((m0 :: ms).map Candle.quote_volume).sum ∧
        r.trade_count = ((m0 :: ms).map Candle.trade_count).sum ∧
        r.taker_buy_base_volume =
          ((m0 :: ms).map Candle.taker_buy_base_volume).sum ∧
        r.taker_buy_quote_volume =
          ((m0 :: ms).map Candle.taker_buy_quote_volume).sum ∧
        r.vwap = (if ((m0 :: ms).map Candle.volume).sum = 0 then none
          else some (((m0 :: ms).map Candle.quote_volume).sum /
            ((m0 :: ms).map Candle.volume).sum)) := by
  intro r hr
  simp only [resample, List.mem_filterMap] at hr
  obtain ⟨b, _, hfb⟩ := hr
  cases hms : bucketMembers T off b cs with
  | nil => rw [hms] at hfb; simp at hfb
  | cons m0 ms =>
    rw [hms] at hfb
    dsimp only [] at hfb
    by_cases hlen : (m0 :: ms).length = (T / Δ).toNat
    · rw [if_pos hlen] at hfb
      have hragg : aggBucket b m0 ms = r := Option.some.inj hfb
      subst hragg
      have hbop : (aggBucket b m0 ms).open_time = b := rfl
      obtain ⟨hhmem, hhle, hhall⟩ := foldl_max_spec (ms.map Candle.high) m0.high
      obtain ⟨hlmem, hlle, hlall⟩ := foldl_min_spec (ms.map Candle.low) m0.low
      refine ⟨m0, ms, by rw [hbop, hms], ?_, rfl, ?_, ?_, ?_, ?_, ?_,
        by simp [aggBucket], by simp [aggBucket], by simp [aggBucket],
        by simp [aggBucket], by simp [aggBucket], by simp [aggBucket]⟩
      · intro m
        rw [hbop, ← hms]
        simp [bucketMembers, List.mem_filter, bucketOf]
      · show (ms.getLastD m0).close = ((m0 :: ms).getLastD m0).close
        rw [List.getLastD_cons]
      · show (ms.map Candle.high).foldl max m0.high ∈ _
        rcases hhmem with h | h
        · rw [h]; exact List.mem_cons_self _ _
        · simp only [List.map_cons]
          exact List.mem_cons_of_mem _ h
      · intro m hm
        show m.high ≤ (ms.map Candle.high).foldl max m0.high
        rcases List.mem_cons.mp hm with rfl | hm'
        · exact hhle
        · exact hhall m.high (List.mem_map_of_mem Candle.high hm')
      · show (ms.map Candle.low).foldl min m0.low ∈ _
        rcases hlmem with h | h
        · rw [h]; exact List.mem_cons_self _ _
        · simp only [List.map_cons]
          exact List.mem_cons_of_mem _ h
      · intro m hm
        show (ms.map Candle.low).foldl min m0.low ≤ m.low
        rcases List.mem_cons.mp hm with rfl | hm'
        · exact hlle
        · exact hlall m.low (List.mem_map_of_mem Candle.low hm')
    · rw [if_neg hlen] at hfb
      simp at hfb

/-- First source candle of the resample witness (bucket 0). -/
def wResA : Candle := ⟨0, 10, 12, 9, 11, 1, 100, 3, 1, 50⟩

/-- Second source candle of the resample witness (same bucket). -/
def wResB : Candle := ⟨10, 11, 13, 10, 12, 1, 100, 4, 1, 50⟩

theorem resample_aggregation_witness :
    aggBucket 0 wResA [wResB] ∈ resample 20 0 10 [wResA, wResB] ∧
    (∃ m0 ms, bucketMembers 20 0 (aggBucket 0 wResA [wResB]).open_time
        [wResA, wResB] = m0 :: ms ∧
      (∀ m : Candle, m ∈ m0 :: ms ↔ m ∈ [wResA, wResB] ∧
        ((m.open_time - 0) / 20) * 20 + 0 =
          (aggBucket 0 wResA [wResB]).open_time) ∧
      (aggBucket 0 wResA [wResB]).open_price = m0.open_price ∧
      (aggBucket 0 wResA [wResB]).close = ((m0 :: ms).getLastD m0).close ∧
      (aggBucket 0 wResA [wResB]).high ∈ (m0 :: ms).map Candle.high ∧
      (∀ m ∈ m0 :: ms, m.high ≤ (aggBucket 0 wResA [wResB]).high) ∧
      (aggBucket 0 wResA [wResB]).low ∈ (m0 :: ms).map Candle.low ∧
      (∀ m ∈ m0 :: ms, (aggBucket 0 wResA [wResB]).low ≤ m.low) ∧
      (aggBucket 0 wResA [wResB]).volume =
        ((m0 :: ms).map Candle.volume).sum ∧
      (aggBucket 0 wResA [wResB]).quote_volume =
        ((m0 :: ms).map Candle.quote_volume).sum ∧
      (aggBucket 0 wResA [wResB]).trade_count =
        ((m0 :: ms).map Candle.trade_count).sum ∧
      (aggBucket 0 wResA [wResB]).taker_buy_base_volume =
        ((m0 :: ms).map Candle.taker_buy_base_volume).sum ∧
      (aggBucket 0 wResA [wResB]).taker_buy_quote_volume =
        ((m0 :: ms).map Candle.taker_buy_quote_volume).sum ∧
      (aggBucket 0 wResA [wResB]).vwap =
        (if ((m0 :: ms).map Candle.volume).sum = 0 then none
          else some (((m0 :: ms).map Candle.quote_volume).sum /
            ((m0 :: ms).map Candle.volume).sum))) :=
  ⟨List.mem_cons_self _ _,
    resample_aggregation 20 0 10 [wResA, wResB]
      (aggBucket 0 wResA [wResB]) (List.mem_cons_self _ _)⟩

theorem bucketOf_le (T off t : Int) (hT : 0 < T) :
    bucketOf T off t ≤ t ∧ t < bucketOf T off t + T := by
  have h1 : 0 ≤ (t - off) % T := Int.emod_nonneg _ (by omega)
  have h2 : (t - off) % T < T := Int.emod_lt_of_pos _ hT
  have h3 : (t - off) % T = (t - off) - T * ((t - off) / T) := Int.emod_def _ _
  have hc : ((t - off) / T) * T = T * ((t - off) / T) := mul_comm _ _
  unfold bucketOf
  constructor <;> linarith

theorem chain_dvd (Δ : Int) (l : List Candle)
    (hch : List.Chain' (stepΔ Δ) l) :
    ∀ x ∈ l, ∀ y ∈ l, Δ ∣ y.open_time - x.open_time := by
  intro x hx y hy
  obtain ⟨ix, hxg⟩ := List.get_of_mem hx
  obtain ⟨iy, hyg⟩ := List.get_of_mem hy
  have hpos : 0 < l.length := by
    cases' ix with i hi
    omega
  have hx0 := chain_time_add Δ l hch ix.val 0 (by omega)
  have hy0 := chain_time_add Δ l hch iy.val 0 (by omega)
  simp only [Nat.zero_add] at hx0 hy0
  have hxval : l.get ⟨ix.val, by omega⟩ = x := hxg
  have hyval : l.get ⟨iy.val, by omega⟩ = y := hyg
  refine ⟨(iy.val : Int) - (ix.val : Int), ?_⟩
  rw [← hxval, ← hyval, hx0, hy0]
  ring

theorem resample_mem_members (T off Δ : Int) (cs : List Candle) :
    ∀ r ∈ resample T off Δ cs, ∃ m0 ms,
      bucketMembers T off r.open_time cs = m0 :: ms ∧
      (m0 :: ms).length = (T / Δ).toNat := by
  intro r hr
  simp only [resample, List.mem_filterMap] at hr
  obtain ⟨b, _, hfb⟩ := hr
  cases hms : bucketMembers T off b cs with
  | nil => rw [hms] at hfb; simp at hfb
  | cons m0 ms =>
    rw [hms] at hfb
    dsimp only [] at hfb
    by_cases hlen : (m0 :: ms).length = (T / Δ).toNat
    · rw [if_pos hlen] at hfb
      have hragg : aggBucket b m0 ms = r := Option.some.inj hfb
      subst hragg
      exact ⟨m0, ms, hms, hlen⟩
    · rw [if_neg hlen] at hfb
      simp at hfb

/-- C5: Bucket emission condition.  Over a filled segment (exact native
steps `Δ`), every bucket emitted by `resample` has member count exactly
`target_interval / native_interval` and its members' `open_time`s are the
full contiguous native grid of the bucket (an arithmetic progression with
step `Δ` starting at the first member); and a trailing partial bucket (one
whose member count falls short, in particular the bucket of the last source
candle when incomplete) is never emitted. -/
theorem resample_emission (T off Δ : Int) (cs : List Candle)
    (hΔ : 0 < Δ) (hT : 0 < T) (hdvd : Δ ∣ T)
    (hch : List.Chain' (stepΔ Δ) cs) :
    (∀ r ∈ resample T off Δ cs,
      (bucketMembers T off r.open_time cs).length = (T / Δ).toNat ∧
      ∃ m0 ms, bucketMembers T off r.open_time cs = m0 :: ms ∧
        (m0 :: ms).map Candle.open_time =
          (List.range (T / Δ).toNat).map
            (fun j : Nat => m0.open_time + (j : Int) * Δ)) ∧
    (∀ z ∈ cs.getLast?,
      (bucketMembers T off (bucketOf T off z.open_time) cs).length ≠
        (T / Δ).toNat →
      ∀ r ∈ resample T off Δ cs, r.open_time ≠ bucketOf T off z.open_time) := by
  constructor
  · intro r hr
    obtain ⟨m0, ms, hms, hlen⟩ := resample_mem_members T off Δ cs r hr
    refine ⟨by rw [hms]; exact hlen, m0, ms, hms, ?_⟩
    have hcs_sorted : List.Pairwise candleLt cs := by
      have h' : List.Chain' candleLt cs := hch.imp (fun a b hab => by
        unfold stepΔ at hab
        unfold candleLt
        omega)
      have : IsTrans Candle candleLt := ⟨fun a b c h1 h2 => by
        unfold candleLt at *
        omega⟩
      exact List.chain'_iff_pairwise.mp h'
    have hmem_sub : (m0 :: ms).Sublist cs := by
      rw [← hms]
      exact List.filter_sublist cs
    have hms_sorted : List.Pairwise candleLt (m0 :: ms) :=
      hcs_sorted.sublist hmem_sub
    have hmem : ∀ m ∈ m0 :: ms, m ∈ cs ∧
        bucketOf T off m.open_time = r.open_time := by
      intro m hm
      rw [← hms] at hm
      have h := List.mem_filter.mp hm
      exact ⟨h.1, by simpa using h.2⟩
    have hbound : ∀ m ∈ m0 :: ms, r.open_time ≤ m.open_time ∧
        m.open_time < r.open_time + T := by
      intro m hm
      have hb := (hmem m hm).2
      have h := bucketOf_le T off m.open_time hT
      rw [hb] at h
      exact h
    have hm0le : ∀ m ∈ m0 :: ms, m0.open_time ≤ m.open_time :=
      mem_ge_head hms_sorted
    have hTmul : (T / Δ) * Δ = T := Int.ediv_mul_cancel hdvd
    have hsub : ∀ m ∈ m0 :: ms, ∃ j : Nat, j < (T / Δ).toNat ∧
        m.open_time = m0.open_time + (j : Int) * Δ := by
      intro m hm
      obtain ⟨k, hk⟩ := chain_dvd Δ cs hch m0
        (hmem m0 (List.mem_cons_self _ _)).1 m (hmem m hm).1
      have hge := hm0le m hm
      have hk0 : 0 ≤ k := by nlinarith
      have hup : m.open_time < m0.open_time + T := by
        have h1 := (hbound m hm).2
        have h2 := (hbound m0 (List.mem_cons_self _ _)).1
        omega
      have hkΔ : k * Δ < (T / Δ) * Δ := by
        have hg : Δ * k < T := by linarith
        calc k * Δ = Δ * k := mul_comm _ _
          _ < T := hg
          _ = (T / Δ) * Δ := hTmul.symm
      have hkn : k < T / Δ := lt_of_mul_lt_mul_right hkΔ (le_of_lt hΔ)
      refine ⟨k.toNat, by omega, ?_⟩
      rw [Int.toNat_of_nonneg hk0, mul_comm k Δ]
      linarith
    have hlen_map : ((m0 :: ms).map Candle.open_time).length = (T / Δ).toNat := by
      rw [List.length_map]
      exact hlen
    have htimes_sorted : List.Pairwise (fun a b : Int => a < b)
        ((m0 :: ms).map Candle.open_time) := by
      rw [List.pairwise_map]
      exact hms_sorted
    have hS_sorted : List.Pairwise (fun a b : Int => a < b)
        ((List.range (T / Δ).toNat).map
          (fun j : Nat => m0.open_time + (j : Int) * Δ)) := by
      rw [List.pairwise_map]
      refine (List.pairwise_lt_range _).imp ?_
      intro i j hij
      have hij' : (i : Int) < (j : Int) := by exact_mod_cast hij
      nlinarith
    have hsubS : ((m0 :: ms).map Candle.open_time) ⊆
        (List.range (T / Δ).toNat).map
          (fun j : Nat => m0.open_time + (j : Int) * Δ) := by
      intro t ht
      obtain ⟨m, hm, rfl⟩ := List.mem_map.mp ht
      obtain ⟨j, hj, hjeq⟩ := hsub m hm
      exact List.mem_map.mpr ⟨j, List.mem_range.mpr hj, hjeq.symm⟩
    have hnodup : ((m0 :: ms).map Candle.open_time).Nodup :=
      htimes_sorted.imp (fun h => ne_of_lt h)
    have hperm := (hnodup.subperm hsubS).perm_of_length_le
      (by rw [List.length_map, List.length_range, hlen_map])
    haveI : IsAntisymm Int (fun a b : Int => a < b) :=
      ⟨fun a b h1 h2 => by omega⟩
    exact List.eq_of_perm_of_sorted hperm htimes_sorted hS_sorted
  · intro z _ hne r hr hEq
    obtain ⟨m0, ms, hms, hlen⟩ := resample_mem_members T off Δ cs r hr
    apply hne
    rw [← hEq, hms]
    exact hlen

theorem resample_emission_witness :
    (∀ r ∈ resample 20 0 10 [wResA, wResB],
      (bucketMembers 20 0 r.open_time [wResA, wResB]).length =
        ((20 : Int) / 10).toNat ∧
      ∃ m0 ms, bucketMembers 20 0 r.open_time [wResA, wResB] = m0 :: ms ∧
        (m0 :: ms).map Candle.open_time =
          (List.range ((20 : Int) / 10).toNat).map
            (fun j : Nat => m0.open_time + (j : Int) * 10)) ∧
    (∀ z ∈ [wResA, wResB].getLast?,
      (bucketMembers 20 0 (bucketOf 20 0 z.open_time) [wResA, wResB]).length ≠
        ((20 : Int) / 10).toNat →
      ∀ r ∈ resample 20 0 10 [wResA, wResB],
        r.open_time ≠ bucketOf 20 0 z.open_time) :=
  resample_emission 20 0 10 [wResA, wResB] (by decide) (by decide)
    ⟨2, by decide⟩ (List.chain'_pair.mpr (by decide))

/-- Modelled from the spec: the key-collision merge of `util/ts_manager.py`
`TSManager.update`, whose source is not available.  Merges the batch
`new_candles` (first argument) into the existing partition (second
argument) by `open_time`; the new candle wins on a key collision and the
result stays sorted. -/
def updateCandles : List Candle → List Candle → List Candle
  | [], old => old
  | n :: ns, [] => n :: ns
  | n :: ns, o :: os =>
    if n.open_time < o.open_time then n :: updateCandles ns (o :: os)
    else if o.open_time < n.open_time then o :: updateCandles (n :: ns) os
    else n :: updateCandles ns os
termination_by ns os => ns.length + os.length

theorem updateCandles_self : ∀ ns : List Candle, updateCandles ns ns = ns := by
  intro ns
  induction ns with
  | nil => rw [updateCandles]
  | cons a t ih =>
    rw [updateCandles, if_neg (lt_irrefl _), if_neg (lt_irrefl _), ih]

theorem updateCandles_idem :
    ∀ ns os : List Candle,
      updateCandles ns (updateCandles ns os) = updateCandles ns os := by
  intro ns os
  induction ns, os using updateCandles.induct with
  | case1 os => simp [updateCandles]
  | case2 n ns =>
    show updateCandles (n :: ns) (updateCandles (n :: ns) []) = _
    rw [show updateCandles (n :: ns) [] = n :: ns from by rw [updateCandles],
      updateCandles_self]
  | case3 n ns o os hlt ih =>
    have h1 : updateCandles (n :: ns) (o :: os) =
        n :: updateCandles ns (o :: os) := by
      rw [updateCandles, if_pos hlt]
    rw [h1, updateCandles, if_neg (lt_irrefl _), if_neg (lt_irrefl _), ih]
  | case4 n ns o os hnlt hgt ih =>
    have h1 : updateCandles (n :: ns) (o :: os) =
        o :: updateCandles (n :: ns) os := by
      rw [updateCandles, if_neg hnlt, if_pos hgt]
    rw [h1, updateCandles, if_neg hnlt, if_pos hgt, ih]
  | case5 n ns o os hnlt hngt ih =>
    have h1 : updateCandles (n :: ns) (o :: os) =
        n :: updateCandles ns os := by
      rw [updateCandles, if_neg hnlt, if_neg hngt]
    rw [h1, updateCandles, if_neg (lt_irrefl _), if_neg (lt_irrefl _), ih]

/-- A partition store: a list of (period key, partition) entries kept
sorted by period key.  Periods model the calendar-day/month partitioning of
`TSManager`. -/
abbrev Store : Type := List (Int × List Candle)

/-- The storage period a timestamp falls into, for a fixed period length
`P` (floor division; period `p` covers `[p*P, (p+1)*P)`). -/
def periodOf (P t : Int) : Int := t / P

/-- `read_partition`: the partition of one period; empty if absent (the
spec's `read_partition` never raises on a missing partition). -/
def getPartition (per : Int) (s : Store) : List Candle :=
  match s.find? (fun e => e.1 == per) with
  | some e => e.2
  | none => []

/-- Sorted insert-or-replace of one period's partition. -/
def setPartition (per : Int) (cs : List Candle) : Store → Store
  | [] => [(per, cs)]
  | e :: s =>
    if per < e.1 then (per, cs) :: e :: s
    else if e.1 < per then e :: setPartition per cs s
    else (per, cs) :: s

/-- Modelled from the spec: `write_partition`'s precondition of
`util/ts_manager.py`, whose source is not available — the batch must be
sorted, unique by `open_time`, and fall entirely within the period's time
bounds. -/
def validBatch (P per : Int) (cs : List Candle) : Bool :=
  decide (sortedSeries cs) && cs.all (fun c => periodOf P c.open_time == per)

/-- The store's validation error (the spec's `ValidationError`). -/
inductive StoreError
  | validationError
  deriving Repr, DecidableEq

/-- A mutating operation of the Partition Store. -/
inductive StoreOp
  | write (per : Int) (cs : List Candle)
  | update (per : Int) (cs : List Candle)
  deriving Repr, DecidableEq

/-- Modelled from the spec: `TSManager.write_partition` — atomic replace
of one period's partition, `ValidationError` (and no state change) on a
precondition violation. -/
def write_partition (P : Int) (s : Store) (per : Int) (cs : List Candle) :
    Except StoreError Store :=
  if validBatch P per cs then Except.ok (setPartition per cs s)
  else Except.error StoreError.validationError

/-- Modelled from the spec: `TSManager.update` — reads the existing
partition, merges `new_candles` by `open_time` (new wins), writes back;
`ValidationError` (and no state change) on a precondition violation. -/
def ts_update (P : Int) (s : Store) (per : Int) (new_candles : List Candle) :
    Except StoreError Store :=
  if validBatch P per new_candles then
    Except.ok (setPartition per
      (updateCandles new_candles (getPartition per s)) s)
  else Except.error StoreError.validationError

/-- One store operation applied to a state; a failed (invalid) operation
leaves the state unchanged. -/
def applyStore (P : Int) (s : Store) : StoreOp → Store
  | StoreOp.write per cs =>
    match write_partition P s per cs with
    | Except.ok s' => s'
    | Except.error _ => s
  | StoreOp.update per cs =>
    match ts_update P s per cs with
    | Except.ok s' => s'
    | Except.error _ => s

/-- A sequence of store operations applied from left to right. -/
def applyStores (P : Int) (s : Store) (ops : List StoreOp) : Store :=
  ops.foldl (applyStore P) s

/-- Modelled from the spec: `TSManager.read_all` — concatenates the
partitions covering `[start, stop)` in period order. -/
def read_all (P start stop : Int) (s : Store) : List Candle :=
  ((s.filter (fun e => decide (e.1 * P < stop) &&
    decide (start < e.1 * P + P))).map (fun e => e.2)).flatten

theorem getPartition_set_same (per : Int) (cs : List Candle) :
    ∀ s : Store, getPartition per (setPartition per cs s) = cs := by
  intro s
  induction s with
  | nil => simp [setPartition, getPartition, List.find?]
  | cons e s ih =>
    by_cases h1 : per < e.1
    · simp [setPartition, if_pos h1, getPartition, List.find?]
    · by_cases h2 : e.1 < per
      · have hne : (e.1 == per) = false := by
          simp only [beq_eq_false_iff_ne, ne_eq]
          omega
        simp only [setPartition, if_neg h1, if_pos h2]
        simp only [getPartition, List.find?, hne] at ih ⊢
        exact ih
      · simp [setPartition, if_neg h1, if_neg h2, getPartition, List.find?]

theorem setPartition_set_same (per : Int) (cs ds : List Candle) :
    ∀ s : Store, setPartition per cs (setPartition per ds s) =
      setPartition per cs s := by
  intro s
  induction s with
  | nil => simp [setPartition]
  | cons e s ih =>
    by_cases h1 : per < e.1
    · simp [setPartition, if_pos h1, lt_irrefl]
    · by_cases h2 : e.1 < per
      · simp only [setPartition, if_neg h1, if_pos h2, ih]
      · simp [setPartition, if_neg h1, if_neg h2, lt_irrefl]

theorem applyStore_update_valid (P per : Int) (cs : List Candle) (s : Store)
    (hv : validBatch P per cs = true) :
    applyStore P s (StoreOp.update per cs) =
      setPartition per (updateCandles cs (getPartition per s)) s := by
  simp [applyStore, ts_update, hv]

theorem applyStore_update_invalid (P per : Int) (cs : List Candle) (s : Store)
    (hv : validBatch P per cs = false) :
    applyStore P s (StoreOp.update per cs) = s := by
  simp [applyStore, ts_update, hv]

/-- C6: Store update idempotence.  For every period and batch, applying the
Partition Store's `update` operation with the same `new_candles` twice
yields a store state identical to applying it once; in particular, merging
the same archival+live batch (the output of `merge_klines`) into the store
twice equals merging once. -/
theorem ts_update_idempotent (P per : Int) (new_candles : List Candle)
    (s : Store) :
    applyStore P (applyStore P s (StoreOp.update per new_candles))
        (StoreOp.update per new_candles) =
      applyStore P s (StoreOp.update per new_candles) ∧
    ∀ (q : Candle → Bool) (arch live : List Candle),
      applyStore P
          (applyStore P s (StoreOp.update per (merge_klines q arch live)))
          (StoreOp.update per (merge_klines q arch live)) =
        applyStore P s (StoreOp.update per (merge_klines q arch live)) := by
  have key : ∀ batch : List Candle,
      applyStore P (applyStore P s (StoreOp.update per batch))
        (StoreOp.update per batch) =
      applyStore P s (StoreOp.update per batch) := by
    intro batch
    by_cases hv : validBatch P per batch = true
    · rw [applyStore_update_valid P per batch s hv,
        applyStore_update_valid P per batch _ hv,
        getPartition_set_same, updateCandles_idem, setPartition_set_same]
    · have hv' : validBatch P per batch = false := by
        simpa using hv
      rw [applyStore_update_invalid P per batch s hv',
        applyStore_update_invalid P per batch s hv']
  exact ⟨key new_candles, fun q arch live => key _⟩

theorem updateCandles_mem :
    ∀ (ns os : List Candle) (x : Candle),
      x ∈ updateCandles ns os → x ∈ ns ∨ x ∈ os := by
  intro ns os
  induction ns, os using updateCandles.induct with
  | case1 os =>
    intro x hx
    rw [updateCandles] at hx
    exact Or.inr hx
  | case2 n ns =>
    intro x hx
    rw [updateCandles] at hx
    exact Or.inl hx
  | case3 n ns o os hlt ih =>
    intro x hx
    rw [updateCandles, if_pos hlt] at hx
    rcases List.mem_cons.mp hx with rfl | hx'
    · exact Or.inl (List.mem_cons_self _ _)
    · rcases ih x hx' with h | h
      · exact Or.inl (List.mem_cons_of_mem _ h)
      · exact Or.inr h
  | case4 n ns o os hnlt hgt ih =>
    intro x hx
    rw [updateCandles, if_neg hnlt, if_pos hgt] at hx
    rcases List.mem_cons.mp hx with rfl | hx'
    · exact Or.inr (List.mem_cons_self _ _)
    · rcases ih x hx' with h | h
      · exact Or.inl h
      · exact Or.inr (List.mem_cons_of_mem _ h)
  | case5 n ns o os hnlt hngt ih =>
    intro x hx
    rw [updateCandles, if_neg hnlt, if_neg hngt] at hx
    rcases List.mem_cons.mp hx with rfl | hx'
    · exact Or.inl (List.mem_cons_self _ _)
    · rcases ih x hx' with h | h
      · exact Or.inl (List.mem_cons_of_mem _ h)
      · exact Or.inr (List.mem_cons_of_mem _ h)

theorem updateCandles_sorted :
    ∀ ns os : List Candle, sortedSeries ns → sortedSeries os →
      sortedSeries (updateCandles ns os) := by
  intro ns os
  induction ns, os using updateCandles.induct with
  | case1 os =>
    intro _ hos
    rw [updateCandles]
    exact hos
  | case2 n ns =>
    intro hns _
    rw [updateCandles]
    exact hns
  | case3 n ns o os hlt ih =>
    intro hns hos
    rw [updateCandles, if_pos hlt]
    have hns' : sortedSeries ns := (List.pairwise_cons.mp hns).2
    refine List.pairwise_cons.mpr ⟨?_, ih hns' hos⟩
    intro y hy
    rcases updateCandles_mem ns (o :: os) y hy with h | h
    · exact (List.pairwise_cons.mp hns).1 y h
    · have := mem_ge_head hos y h
      unfold candleLt
      omega
  | case4 n ns o os hnlt hgt ih =>
    intro hns hos
    rw [updateCandles, if_neg hnlt, if_pos hgt]
    have hos' : sortedSeries os := (List.pairwise_cons.mp hos).2
    refine List.pairwise_cons.mpr ⟨?_, ih hns hos'⟩
    intro y hy
    rcases updateCandles_mem (n :: ns) os y hy with h | h
    · have := mem_ge_head hns y h
      unfold candleLt
      omega
    · exact (List.pairwise_cons.mp hos).1 y h
  | case5 n ns o os hnlt hngt ih =>
    intro hns hos
    rw [updateCandles, if_neg hnlt, if_neg hngt]
    have hns' : sortedSeries ns := (List.pairwise_cons.mp hns).2
    have hos' : sortedSeries os := (List.pairwise_cons.mp hos).2
    refine List.pairwise_cons.mpr ⟨?_, ih hns' hos'⟩
    intro y hy
    rcases updateCandles_mem ns os y hy with h | h
    · exact (List.pairwise_cons.mp hns).1 y h
    · have := (List.pairwise_cons.mp hos).1 y h
      unfold candleLt at *
      omega

theorem periodOf_bounds (P t per : Int) (hP : 0 < P)
    (h : periodOf P t = per) : per * P ≤ t ∧ t < per * P + P := by
  have h1 : 0 ≤ t % P := Int.emod_nonneg _ (by omega)
  have h2 : t % P < P := Int.emod_lt_of_pos _ hP
  have h3 : t % P = t - P * (t / P) := Int.emod_def _ _
  unfold periodOf at h
  have hc : per * P = P * (t / P) := by rw [← h]; ring
  constructor <;> linarith

/-- The Partition Store's layer invariant: period keys strictly sorted,
every partition sorted by `open_time` and entirely within its period's time
bounds. -/
def storeWF (P : Int) (s : Store) : Prop :=
  List.Pairwise (fun e f : Int × List Candle => e.1 < f.1) s ∧
  ∀ e ∈ s, sortedSeries e.2 ∧ ∀ c ∈ e.2, periodOf P c.open_time = e.1

theorem setPartition_mem (per : Int) (cs : List Candle) :
    ∀ (s : Store) (f : Int × List Candle), f ∈ setPartition per cs s →
      f = (per, cs) ∨ f ∈ s := by
  intro s
  induction s with
  | nil =>
    intro f hf
    simp [setPartition] at hf
    exact Or.inl (by simp [hf])
  | cons e s ih =>
    intro f hf
    by_cases h1 : per < e.1
    · simp only [setPartition, if_pos h1] at hf
      rcases List.mem_cons.mp hf with rfl | hf'
      · exact Or.inl rfl
      · exact Or.inr hf'
    · by_cases h2 : e.1 < per
      · simp only [setPartition, if_neg h1, if_pos h2] at hf
        rcases List.mem_cons.mp hf with rfl | hf'
        · exact Or.inr (List.mem_cons_self _ _)
        · rcases ih f hf' with h | h
          · exact Or.inl h
          · exact Or.inr (List.mem_cons_of_mem _ h)
      · simp only [setPartition, if_neg h1, if_neg h2] at hf
        rcases List.mem_cons.mp hf with rfl | hf'
        · exact Or.inl rfl
        · exact Or.inr (List.mem_cons_of_mem _ hf')

theorem setPartition_WF (P per : Int) (cs : List Candle) (s : Store)
    (hwf : storeWF P s) (hcs : sortedSeries cs)
    (hper : ∀ c ∈ cs, periodOf P c.open_time = per) :
    storeWF P (setPartition per cs s) := by
  obtain ⟨hkeys, hentries⟩ := hwf
  constructor
  · clear hentries
    induction s with
    | nil => simp [setPartition]
    | cons e s ih =>
      have hk' : List.Pairwise (fun e f : Int × List Candle => e.1 < f.1) s :=
        (List.pairwise_cons.mp hkeys).2
      have hhead := (List.pairwise_cons.mp hkeys).1
      by_cases h1 : per < e.1
      · simp only [setPartition, if_pos h1]
        refine List.pairwise_cons.mpr ⟨?_, hkeys⟩
        intro f hf
        rcases List.mem_cons.mp hf with rfl | hf'
        · exact h1
        · have := hhead f hf'
          omega
      · by_cases h2 : e.1 < per
        · simp only [setPartition, if_neg h1, if_pos h2]
          refine List.pairwise_cons.mpr ⟨?_, ih hk'⟩
          intro f hf
          rcases setPartition_mem per cs s f hf with rfl | hf'
          · exact h2
          · exact hhead f hf'
        · simp only [setPartition, if_neg h1, if_neg h2]
          refine List.pairwise_cons.mpr ⟨?_, hk'⟩
          intro f hf
          have := hhead f hf
          omega
  · intro f hf
    rcases setPartition_mem per cs s f hf with rfl | hf'
    · exact ⟨hcs, hper⟩
    · exact hentries f hf'

theorem getPartition_WF (P per : Int) (s : Store) (hwf : storeWF P s) :
    sortedSeries (getPartition per s) ∧
    ∀ c ∈ getPartition per s, periodOf P c.open_time = per := by
  unfold getPartition
  cases hfind : s.find? (fun e => e.1 == per) with
  | none => exact ⟨List.Pairwise.nil, by simp⟩
  | some e =>
    have hmem : e ∈ s := List.mem_of_find?_eq_some hfind
    have hpred := List.find?_some hfind
    have hkey : e.1 = per := by simpa using hpred
    obtain ⟨hsorted, hper⟩ := hwf.2 e hmem
    exact ⟨hsorted, fun c hc => by rw [← hkey]; exact hper c hc⟩

theorem validBatch_spec (P per : Int) (cs : List Candle)
    (hv : validBatch P per cs = true) :
    sortedSeries cs ∧ ∀ c ∈ cs, periodOf P c.open_time = per := by
  unfold validBatch at hv
  rw [Bool.and_eq_true] at hv
  refine ⟨by simpa using hv.1, ?_⟩
  intro c hc
  have := List.all_eq_true.mp hv.2 c hc
  simpa using this

theorem applyStore_WF (P : Int) (s : Store) (op : StoreOp)
    (hwf : storeWF P s) : storeWF P (applyStore P s op) := by
  cases op with
  | write per cs =>
    by_cases hv : validBatch P per cs = true
    · obtain ⟨h1, h2⟩ := validBatch_spec P per cs hv
      simp only [applyStore, write_partition, if_pos hv]
      exact setPartition_WF P per cs s hwf h1 h2
    · simp only [applyStore, write_partition, if_neg hv]
      exact hwf
  | update per cs =>
    by_cases hv : validBatch P per cs = true
    · obtain ⟨h1, h2⟩ := validBatch_spec P per cs hv
      obtain ⟨h3, h4⟩ := getPartition_WF P per s hwf
      simp only [applyStore, ts_update, if_pos hv]
      refine setPartition_WF P per _ s hwf
        (updateCandles_sorted cs _ h1 h3) ?_
      intro c hc
      rcases updateCandles_mem cs _ c hc with h | h
      · exact h2 c h
      · exact h4 c h
    · simp only [applyStore, ts_update, if_neg hv]
      exact hwf

theorem applyStores_WF (P : Int) :
    ∀ (ops : List StoreOp) (s : Store), storeWF P s →
      storeWF P (applyStores P s ops) := by
  intro ops
  induction ops with
  | nil => intro s hwf; exact hwf
  | cons op ops ih =>
    intro s hwf
    exact ih (applyStore P s op) (applyStore_WF P s op hwf)

theorem storeWF_empty (P : Int) : storeWF P ([] : Store) :=
  ⟨List.Pairwise.nil, by intro e he; simp at he⟩

theorem read_all_sorted_of_WF (P start stop : Int) (s : Store)
    (hP : 0 < P) (hwf : storeWF P s) :
    List.Pairwise candleLt (read_all P start stop s) := by
  obtain ⟨hkeys, hentries⟩ := hwf
  unfold read_all
  rw [List.pairwise_flatten]
  set flt := s.filter (fun e => decide (e.1 * P < stop) &&
    decide (start < e.1 * P + P)) with hflt
  have hsub : flt.Sublist s := List.filter_sublist s
  have hmemflt : ∀ e ∈ flt, e ∈ s := fun e he => hsub.subset he
  constructor
  · intro l hl
    obtain ⟨e, he, rfl⟩ := List.mem_map.mp hl
    exact (hentries e (hmemflt e he)).1
  · rw [List.pairwise_map]
    have hkf : List.Pairwise (fun e f : Int × List Candle => e.1 < f.1) flt :=
      hkeys.sublist hsub
    refine List.Pairwise.imp_of_mem ?_ hkf
    intro e f he hf hlt x hx y hy
    have hxe := (hentries e (hmemflt e he)).2 x hx
    have hyf := (hentries f (hmemflt f hf)).2 y hy
    have hxb := periodOf_bounds P x.open_time e.1 hP hxe
    have hyb := periodOf_bounds P y.open_time f.1 hP hyf
    have hstep : (e.1 + 1) * P ≤ f.1 * P := by
      have h1 : e.1 + 1 ≤ f.1 := by omega
      exact mul_le_mul_of_nonneg_right h1 (by omega)
    unfold candleLt
    nlinarith

/-- C7: Sort/uniqueness invariant of `read_all`.  After every sequence of
store operations applied to the empty store, the output of `read_all` —
the concatenation of the partitions covering `[start, stop)` in period
order — is strictly increasing by `open_time` (hence duplicate-free). -/
theorem read_all_sorted_unique (P : Int) (hP : 0 < P) (ops : List StoreOp)
    (start stop : Int) :
    List.Pairwise candleLt (read_all P start stop (applyStores P [] ops)) :=
  read_all_sorted_of_WF P start stop _ hP
    (applyStores_WF P ops [] (storeWF_empty P))

/-- A candle used by the store witness (period 0 for P = 100). -/
def wStoreA : Candle := ⟨5, 1, 1, 1, 1, 1, 1, 1, 1, 1⟩

/-- A candle used by the store witness (period 1 for P = 100). -/
def wStoreB : Candle := ⟨150, 2, 2, 2, 2, 2, 2, 2, 2, 2⟩

theorem read_all_sorted_unique_witness :
    List.Pairwise candleLt (read_all 100 0 1000 (applyStores 100 []
      [StoreOp.update 0 [wStoreA], StoreOp.write 1 [wStoreB],
        StoreOp.update 0 [wStoreA, wStoreB]])) :=
  read_all_sorted_unique 100 (by decide)
    [StoreOp.update 0 [wStoreA], StoreOp.write 1 [wStoreB],
      StoreOp.update 0 [wStoreA, wStoreB]] 0 1000

/-- Modelled from the spec: `split_by_gaps` of `generate/kline_gaps.py`,
whose source is not available.  Cuts the series into segments at every
detected hard-gap boundary; no candle is dropped or duplicated by the
split itself. -/
def split_by_gaps (mg : Int) (mp : Rat) : List Candle → List (List Candle)
  | [] => []
  | [c] => [[c]]
  | c :: d :: rest =>
    match split_by_gaps mg mp (d :: rest) with
    | [] => [[c]]
    | seg :: segs =>
      if isGapPair mg mp c d then [c] :: seg :: segs
      else (c :: seg) :: segs

/-- The Gap Engine's internal-invariant failure (the spec's
`GapPolicyViolation`). -/
inductive GenError
  | gapPolicyViolation
  deriving Repr, DecidableEq

/-- Decidable check that a filled segment is on the exact native grid. -/
def regularSteps (Δ : Int) (cs : List Candle) : Bool :=
  decide (List.Chain' (stepΔ Δ) cs)

/-- Modelled from the spec: gap segmentation with degenerate-segment
dropping — segments with fewer than `min_segment_candles` candles are
dropped rather than emitted. -/
def segment_series (mg : Int) (mp : Rat) (minCnt : Nat)
    (cs : List Candle) : List (List Candle) :=
  (split_by_gaps mg mp cs).filter (fun seg => minCnt ≤ seg.length)

/-- Modelled from the spec: the per-instrument Gap Engine outcome — the
kept segments, filled, as a success value (`Except.ok`), with
`GapPolicyViolation` reserved for a filled segment that still has an
irregular time step.  Zero segments is `Except.ok []`, a success
distinguishable from an error. -/
def gen_segments (Δ mg : Int) (mp : Rat) (minCnt : Nat)
    (cs : List Candle) : Except GenError (List (List Candle)) :=
  let segs := (segment_series mg mp minCnt cs).map (fill_kline_gaps Δ)
  if segs.all (regularSteps Δ) then Except.ok segs
  else Except.error GenError.gapPolicyViolation

theorem split_by_gaps_flatten (mg : Int) (mp : Rat) :
    ∀ cs : List Candle, (split_by_gaps mg mp cs).flatten = cs := by
  intro cs
  induction cs with
  | nil => rfl
  | cons c cs ih =>
    cases cs with
    | nil => rfl
    | cons d rest =>
      cases hsplit : split_by_gaps mg mp (d :: rest) with
      | nil =>
        rw [hsplit] at ih
        simp at ih
      | cons seg segs =>
        rw [hsplit] at ih
        show (match split_by_gaps mg mp (d :: rest) with
          | [] => [[c]]
          | seg :: segs =>
            if isGapPair mg mp c d then [c] :: seg :: segs
            else (c :: seg) :: segs).flatten = c :: d :: rest
        rw [hsplit]
        dsimp only []
        split
        · simp only [List.flatten_cons] at ih ⊢
          rw [List.singleton_append, ih]
        · simp only [List.flatten_cons] at ih ⊢
          rw [List.cons_append, ih]

theorem split_by_gaps_length_le (mg : Int) (mp : Rat) (cs : List Candle) :
    ∀ seg ∈ split_by_gaps mg mp cs, seg.length ≤ cs.length := by
  intro seg hseg
  have hj := split_by_gaps_flatten mg mp cs
  have hlen : ((split_by_gaps mg mp cs).map List.length).sum = cs.length := by
    rw [← List.length_flatten, hj]
  have hmem : seg.length ∈ (split_by_gaps mg mp cs).map List.length :=
    List.mem_map_of_mem List.length hseg
  calc seg.length ≤ ((split_by_gaps mg mp cs).map List.length).sum :=
        List.single_le_sum (fun x _ => Nat.zero_le x) _ hmem
    _ = cs.length := hlen

/-- C8: Degenerate segments.  Every segment emitted by gap segmentation
has at least the configured minimum candle count; segmentation itself
neither drops nor duplicates candles (the segments flatten back to the
series); and an instrument whose entire history is shorter than the
minimum yields zero output segments as a successful `Except.ok []`
outcome, never an error. -/
theorem degenerate_segments_dropped (Δ mg : Int) (mp : Rat) (minCnt : Nat)
    (cs : List Candle) :
    (∀ seg ∈ segment_series mg mp minCnt cs, minCnt ≤ seg.length) ∧
    (split_by_gaps mg mp cs).flatten = cs ∧
    (cs.length < minCnt →
      gen_segments Δ mg mp minCnt cs = Except.ok []) ∧
    (cs.length < minCnt →
      ∀ e : GenError, gen_segments Δ mg mp minCnt cs ≠ Except.error e) := by
  have hshort : cs.length < minCnt →
      gen_segments Δ mg mp minCnt cs = Except.ok [] := by
    intro hlt
    have hempty : segment_series mg mp minCnt cs = [] := by
      unfold segment_series
      rw [List.filter_eq_nil_iff]
      intro seg hseg
      have := split_by_gaps_length_le mg mp cs seg hseg
      simp only [decide_eq_true_eq]
      omega
    unfold gen_segments
    rw [hempty]
    simp
  refine ⟨?_, split_by_gaps_flatten mg mp cs, hshort, ?_⟩
  · intro seg hseg
    have := List.of_mem_filter hseg
    simpa using this
  · intro hlt e
    rw [hshort hlt]
    simp

/-- The single candle of the too-short-history witness instrument. -/
def wSegA : Candle := ⟨0, 3, 3, 3, 3, 1, 1, 1, 1, 1⟩

theorem degenerate_segments_dropped_witness :
    (∀ seg ∈ segment_series 5 (1/10) 5 [wSegA], 5 ≤ seg.length) ∧
    (split_by_gaps 5 (1/10) [wSegA]).flatten = [wSegA] ∧
    gen_segments 10 5 (1/10) 5 [wSegA] = Except.ok [] ∧
    (∀ e : GenError, gen_segments 10 5 (1/10) 5 [wSegA] ≠ Except.error e) :=
  ⟨(degenerate_segments_dropped 10 5 (1/10) 5 [wSegA]).1,
    (degenerate_segments_dropped 10 5 (1/10) 5 [wSegA]).2.1,
    (degenerate_segments_dropped 10 5 (1/10) 5 [wSegA]).2.2.1 (by decide),
    fun e =>
      (degenerate_segments_dropped 10 5 (1/10) 5 [wSegA]).2.2.2 (by decide) e⟩

/-- Modelled from the spec: `merge_and_split_gaps` / `gen_kline` of
`generate/kline.py`, whose source is not available.  Merges the archival
and live series, then: with `split_gaps` set, splits at detected gaps,
drops degenerate segments and fills each segment; with `split_gaps` off,
emits the merged-and-filled series as a single unsplit output with no
segmentation. -/
def merge_and_split_gaps (split_gaps : Bool) (Δ mg : Int) (mp : Rat)
    (minCnt : Nat) (q : Candle → Bool) (arch live : List Candle) :
    List (List Candle) :=
  let merged := merge_klines q arch live
  if split_gaps then
    (segment_series mg mp minCnt merged).map (fill_kline_gaps Δ)
  else
    [fill_kline_gaps Δ merged]

/-- C9: Gap splitting is opt-in.  With the `split_gaps` flag off the
pipeline emits the merged (and filled) series as a single unsplit output —
one output list, no segmentation, every merged candle present in it; the
splitting into (degenerate-dropped, filled) segments happens only when the
flag is set. -/
theorem split_gaps_opt_in (Δ mg : Int) (mp : Rat) (minCnt : Nat)
    (q : Candle → Bool) (arch live : List Candle) :
    merge_and_split_gaps false Δ mg mp minCnt q arch live =
      [fill_kline_gaps Δ (merge_klines q arch live)] ∧
    (merge_and_split_gaps false Δ mg mp minCnt q arch live).length = 1 ∧
    (∀ c ∈ merge_klines q arch live,
      ∀ seg ∈ merge_and_split_gaps false Δ mg mp minCnt q arch live,
        c ∈ seg) ∧
    merge_and_split_gaps true Δ mg mp minCnt q arch live =
      (segment_series mg mp minCnt (merge_klines q arch live)).map
        (fill_kline_gaps Δ) := by
  refine ⟨rfl, rfl, ?_, rfl⟩
  intro c hc seg hseg
  have hone : seg = fill_kline_gaps Δ (merge_klines q arch live) := by
    simpa [merge_and_split_gaps] using hseg
  rw [hone]
  exact fill_subset Δ _ c hc

/-- The partial-candle test used by the opt-in witness. -/
def wOptQ : Candle → Bool := fun c => c.volume == 0

/-- The single live candle of the opt-in witness. -/
def wOptC : Candle := ⟨0, 4, 4, 4, 4, 1, 1, 1, 1, 1⟩

theorem split_gaps_opt_in_witness :
    merge_and_split_gaps false 10 5 (1/10) 3 wOptQ [] [wOptC] =
      [fill_kline_gaps 10 (merge_klines wOptQ [] [wOptC])] ∧
    (merge_and_split_gaps false 10 5 (1/10) 3 wOptQ [] [wOptC]).length = 1 ∧
    wOptC ∈ fill_kline_gaps 10 (merge_klines wOptQ [] [wOptC]) ∧
    merge_and_split_gaps true 10 5 (1/10) 3 wOptQ [] [wOptC] =
      (segment_series 5 (1/10) 3 (merge_klines wOptQ [] [wOptC])).map
        (fill_kline_gaps 10) :=
  ⟨(split_gaps_opt_in 10 5 (1/10) 3 wOptQ [] [wOptC]).1,
    (split_gaps_opt_in 10 5 (1/10) 3 wOptQ [] [wOptC]).2.1,
    (split_gaps_opt_in 10 5 (1/10) 3 wOptQ [] [wOptC]).2.2.1 wOptC
      (by simp [merge_klines])
      (fill_kline_gaps 10 (merge_klines wOptQ [] [wOptC]))
      (by simp [merge_and_split_gaps]),
    (split_gaps_opt_in 10 5 (1/10) 3 wOptQ [] [wOptC]).2.2.2⟩

/-- Modelled from the spec/CLI: the offset list of
`generate resample-type <trade_type> <interval> <base_offset>`
(`generate/resample.py`, whose source is not available).  With base offset
0 only the zero offset is produced; with a positive base offset `o`, one
offset per multiple of `o` in `[0, target_interval)`. -/
def offsetList (T o : Int) : List Int :=
  if o = 0 then [0]
  else ((List.range T.toNat).map (fun k : Nat => (k : Int))).filter
    (fun t => t % o == 0)

/-- Modelled from the spec/CLI: one resampled output series per anchor
offset, each keyed by its own offset (its offset-named subdirectory, e.g.
`resampled_klines/1h/5m/SYMBOL.pqt`). -/
def resample_type (T o Δ : Int) (cs : List Candle) :
    List (Int × List RCandle) :=
  (offsetList T o).map (fun off => (off, resample T off Δ cs))

/-- C10: Offset enumeration of a resample invocation.  With base offset
step 0 exactly the zero-offset series is produced; with a positive step
`o`, the produced offsets are exactly the multiples of `o` in
`[0, target_interval)`, each offset appears once (its own subdirectory),
and each produced series is the resample of the source at its own offset.
-/
theorem resample_type_offsets (T o Δ : Int) (cs : List Candle)
    (hT : 0 < T) (ho : 0 ≤ o) :
    (o = 0 → resample_type T o Δ cs = [(0, resample T 0 Δ cs)]) ∧
    (0 < o → ∀ off : Int,
      off ∈ offsetList T o ↔ (o ∣ off ∧ 0 ≤ off ∧ off < T)) ∧
    (offsetList T o).Nodup ∧
    (resample_type T o Δ cs).length = (offsetList T o).length ∧
    (∀ e ∈ resample_type T o Δ cs,
      e.1 ∈ offsetList T o ∧ e.2 = resample T e.1 Δ cs) := by
  refine ⟨?_, ?_, ?_, List.length_map _ _, ?_⟩
  · intro h0
    subst h0
    simp [resample_type, offsetList]
  · intro hpos off
    unfold offsetList
    rw [if_neg (by omega), List.mem_filter]
    constructor
    · rintro ⟨hmem, hmod⟩
      obtain ⟨k, hk, rfl⟩ := List.mem_map.mp hmem
      have hkT : k < T.toNat := List.mem_range.mp hk
      refine ⟨Int.dvd_of_emod_eq_zero (by simpa using hmod),
        Int.natCast_nonneg k, by omega⟩
    · rintro ⟨hdvd, h0, hT'⟩
      refine ⟨List.mem_map.mpr
        ⟨off.toNat, List.mem_range.mpr (by omega), by omega⟩, ?_⟩
      simp only [beq_iff_eq]
      exact Int.emod_eq_zero_of_dvd hdvd
  · unfold offsetList
    split
    · simp
    · exact List.Nodup.filter _
        (List.Nodup.map Nat.cast_injective (List.nodup_range _))
  · intro e he
    obtain ⟨off, hoff, rfl⟩ := List.mem_map.mp he
    exact ⟨hoff, rfl⟩

theorem resample_type_offsets_witness :
    ((20 : Int) = 0 →
      resample_type 20 20 10 [] = [(0, resample 20 0 10 [])]) ∧
    ((0 : Int) < 20 → ∀ off : Int,
      off ∈ offsetList 20 20 ↔ ((20 : Int) ∣ off ∧ 0 ≤ off ∧ off < 20)) ∧
    (offsetList 20 20).Nodup ∧
    (resample_type 20 20 10 []).length = (offsetList 20 20).length ∧
    (∀ e ∈ resample_type 20 20 10 [],
      e.1 ∈ offsetList 20 20 ∧ e.2 = resample 20 e.1 10 []) :=
  resample_type_offsets 20 20 10 [] (by decide) (by decide)
